import Mathlib

/- Shallow embedding of `album2embedcodes.py`: a Flickr album scraper that
collects photo hotlink URLs from album pages, normalizes them into embed
URLs, and renders HTML embed codes. The regular-expression match of
`HOTLINK_URL_REGEX` is embedded as an explicit backtracking parser with the
same semantics as Python `re.match` on that pattern; the selenium browser
is modeled abstractly by the list of hotlink URLs visible after each
scroll operation. -/

/-- Characters matched by Python's `\s` on str patterns (hence excluded by `\S`). -/
def isPySpace (c : Char) : Bool :=
  c == ' ' || c == '\t' || c == '\n' || c == '\r' || c == '\x0b' || c == '\x0c' ||
  c == '\x1c' || c == '\x1d' || c == '\x1e' || c == '\x1f' || c == '\x85' || c == '\xa0' ||
  c == '\u1680' || (0x2000 ≤ c.toNat && c.toNat ≤ 0x200a) ||
  c == '\u2028' || c == '\u2029' || c == '\u202F' || c == '\u205F' || c == '\u3000'

/-- The file-extension tail `\.jpg` of the hotlink pattern, as characters. -/
def jpg : List Char := ['.', 'j', 'p', 'g']

/-- Whether `\.jpg$` matches the whole remaining input; Python's `$` (without
`re.MULTILINE`) also matches just before a single trailing newline. -/
def jpgEndP (r : List Char) : Prop := r = jpg ∨ r = jpg ++ ['\n']

instance (r : List Char) : Decidable (jpgEndP r) := by
  unfold jpgEndP; infer_instance

/-- Matcher for the tail `(?P<image_id>.*?)(?P<image_size>(_\S)?)\.jpg$` of
`HOTLINK_URL_REGEX`: at each position, first try the greedy one-character size
suffix `_\S` followed by `\.jpg$`, then the empty suffix followed by `\.jpg$`,
and otherwise let the lazy `.*?` consume one more (non-newline) character.
Returns the captured `image_id` and `image_size` groups. -/
def lazyTail : List Char → Option (List Char × List Char)
  | [] => none
  | [_] => none
  | a :: b :: r =>
    if a = '_' ∧ isPySpace b = false ∧ jpgEndP r then some ([], ['_', b])
    else if jpgEndP (a :: b :: r) then some ([], [])
    else if a = '\n' then none
    else (lazyTail (b :: r)).map fun pr => (a :: pr.1, pr.2)

/-- Greedy `\d+`: split off the maximal leading run of digits. -/
def takeDigits : List Char → List Char × List Char
  | [] => ([], [])
  | c :: r =>
    if c.isDigit then
      let p := takeDigits r
      (c :: p.1, p.2)
    else ([], c :: r)

/-- Match a literal character sequence and return the rest of the input. -/
def stripLit : List Char → List Char → Option (List Char)
  | [], r => some r
  | _ :: _, [] => none
  | l :: ls, c :: r => if c = l then stripLit ls r else none

/-- Literal `staticflickr` from the hotlink pattern. -/
def staticflickrL : List Char := "staticflickr".data

/-- Literal `com/` from the hotlink pattern. -/
def comSlashL : List Char := "com/".data

/-- Python `re.match` of `HOTLINK_URL_REGEX` (verbose mode) against the input,
returning the captured `farm_id` and `image_id` groups. The pattern is
`^(?P<subdomain>c\d+)\.staticflickr.com/(?P<farm_id>\d+)/(?P<image_id>.*?)
(?P<image_size>(_\S)?)\.jpg$`; note that the unescaped dot before `com`
matches any single non-newline character. -/
def hotlinkMatchList (s : List Char) : Option (List Char × List Char) :=
  match s with
  | [] => none
  | c0 :: r0 =>
    if c0 = 'c' then
      let p1 := takeDigits r0
      if p1.1 = [] then none
      else
        match p1.2 with
        | [] => none
        | c1 :: r2 =>
          if c1 = '.' then
            match stripLit staticflickrL r2 with
            | none => none
            | some [] => none
            | some (a :: r4) =>
              if a = '\n' then none
              else
                match stripLit comSlashL r4 with
                | none => none
                | some r5 =>
                  let p2 := takeDigits r5
                  if p2.1 = [] then none
                  else
                    match p2.2 with
                    | [] => none
                    | c2 :: r7 =>
                      if c2 = '/' then (lazyTail r7).map fun pr => (p2.1, pr.1)
                      else none
          else none
    else none

/-- `hotlink_url2embed_url` from the source: match `HOTLINK_URL_REGEX` and build
`https://farm{farm_id}.staticflickr.com/{image_id}.jpg`. When the match fails,
the Python code calls `.group` on `None` and raises; that is modeled as `none`. -/
def hotlink_url2embed_url (hotlink_url : String) : Option String :=
  (hotlinkMatchList hotlink_url.data).map fun pr =>
    "https://farm" ++ String.mk pr.1 ++ ".staticflickr.com/" ++ String.mk pr.2 ++ ".jpg"

/-- `get_orientation` from the source: `landscape` if the image is wider than
tall, `portrait` otherwise. Python integers are modeled as `Int`. -/
def get_orientation (width height : Int) : String :=
  if width > height then "landscape" else "portrait"

/-- `embed_url2embed_code` from the source: an HTML embed code of medium
dimensions, 500x334 for landscape and 334x500 otherwise. -/
def embed_url2embed_code (image_url image_page title orientation : String) : String :=
  let wh : Nat × Nat := if orientation = "landscape" then (500, 334) else (334, 500)
  "<a data-flickr-embed=\"true\" href=\"" ++ image_page ++ "\" title=\"" ++ title ++
    "\"> <img src=\"" ++ image_url ++ "\" width=\"" ++ toString wh.1 ++
    "\" height=\"" ++ toString wh.2 ++ "\" alt=\"" ++ title ++ "\"></a>"

/-- Abstract album-page state: `visible k` is the list of hotlink URLs of the
photo elements present in the DOM after `k` scroll-to-bottom operations. -/
structure Browser where
  visible : Nat → List String

/-- `_get_visible_photos` from the source: convert each currently visible
hotlink URL into an embed URL and add it to the accumulator set; a URL the
pattern rejects raises an `AttributeError` (modeled as `none`). -/
def _get_visible_photos (elems : List String) (known_urls : Finset String) :
    Option (Finset String) :=
  match elems with
  | [] => some known_urls
  | u :: rest =>
    match hotlink_url2embed_url u with
    | none => none
    | some e => _get_visible_photos rest (insert e known_urls)

/-- Scroll-and-rescan loop of `_get_page_photos`: while fewer than 100 URLs are
known, scroll once, rescan, and continue only if the URL count grew. Returns
the final accumulator together with the number of scrolls performed. -/
def scrollLoop (b : Browser) (scrolls : Nat) (urls : Finset String) (num : Nat) :
    Option (Finset String) × Nat :=
  if _hn : num < 100 then
    match _get_visible_photos (b.visible (scrolls + 1)) urls with
    | none => (none, scrolls + 1)
    | some urls2 =>
      if hc : urls2.card > num then scrollLoop b (scrolls + 1) urls2 urls2.card
      else (some urls2, scrolls + 1)
  else (some urls, scrolls)
termination_by 100 - num
decreasing_by omega

/-- `_get_page_photos` from the source: run the scroll loop starting from the
empty set, then rescan once more and return the result, instrumented with the
number of scrolls performed. -/
def _get_page_photos (b : Browser) : Option (Finset String) × Nat :=
  match scrollLoop b 0 ∅ 0 with
  | (none, s) => (none, s)
  | (some urls, s) => (_get_visible_photos (b.visible s) urls, s)

/-- Pagination tail of `get_photo_urls`: accumulate each follow-up page's URL
set into the running set with `set.update` (union). -/
def goPages : List Browser → Finset String → Option (Finset String)
  | [], acc => some acc
  | p :: ps, acc =>
    match (_get_page_photos p).1 with
    | none => none
    | some s => goPages ps (acc ∪ s)

/-- `get_photo_urls` from the source, with navigation glue abstracted away: the
album is the list of its per-page browser states (an empty album fails the
`awake`-elements check and raises, modeled as `none`); the first page's URLs
are collected, then each follow-up page's URLs are unioned in. -/
def get_photo_urls : List Browser → Option (Finset String)
  | [] => none
  | p :: ps =>
    match (_get_page_photos p).1 with
    | none => none
    | some s => goPages ps s

/-- Canonical well-formed hotlink URL built from its components. -/
def mkHotlink (d f i z : String) : String :=
  "c" ++ d ++ ".staticflickr.com/" ++ f ++ "/" ++ i ++ z ++ ".jpg"

/-- A nonempty string of decimal digits. -/
def digitStr (d : String) : Prop := d ≠ "" ∧ ∀ c ∈ d.data, c.isDigit = true

/-- An optional image-size suffix as in the pattern: empty, or an underscore
followed by one non-whitespace character. -/
def optSizeSuffix (z : String) : Prop :=
  z = "" ∨ ∃ c, isPySpace c = false ∧ z = String.mk ['_', c]

/-- Whether a character list ends in an underscore followed by a single
non-whitespace character, i.e. in something the pattern's `(_\S)?` group can
re-attribute as a size suffix. -/
def endsWithSizeSuffix : List Char → Bool
  | [] => false
  | [_] => false
  | [a, b] => a == '_' && !(isPySpace b)
  | _ :: b :: c :: r => endsWithSizeSuffix (b :: c :: r)

/-- Substring containment, stated on the underlying character lists. -/
def strContains (s sub : String) : Prop := sub.data <:+: s.data

/-! Basic string and list plumbing. -/

lemma str_data_append (a b : String) : (a ++ b).data = a.data ++ b.data := by
  cases a; cases b; rfl

lemma str_mk_data (s : String) : String.mk s.data = s := by
  cases s; rfl

lemma str_data_nil_iff (s : String) : s.data = [] ↔ s = "" := by
  cases s with
  | mk l =>
    constructor
    · intro h
      have hl : l = [] := h
      rw [hl]
    · intro h
      exact congrArg String.data h

/-! Lemmas about the embedded `HOTLINK_URL_REGEX` matcher. -/

lemma jpgEndP_append (l : List Char) : jpgEndP (l ++ jpg) ↔ l = [] := by
  constructor
  · rintro (h | h)
    · rcases l with _ | ⟨x, l⟩
      · rfl
      · have hlen := congrArg List.length h
        simp [jpg] at hlen
    · rcases l with _ | ⟨x, l⟩
      · have hlen := congrArg List.length h
        simp [jpg] at hlen
      · rcases l with _ | ⟨y, l⟩
        · simp [jpg] at h
        · have hlen := congrArg List.length h
          simp [jpg] at hlen
  · rintro rfl
    exact Or.inl rfl

lemma lazyTail_cons_cons (a b : Char) (r : List Char) :
    lazyTail (a :: b :: r) =
      if a = '_' ∧ isPySpace b = false ∧ jpgEndP r then some ([], ['_', b])
      else if jpgEndP (a :: b :: r) then some ([], [])
      else if a = '\n' then none
      else (lazyTail (b :: r)).map fun pr => (a :: pr.1, pr.2) := rfl

lemma endsWithSizeSuffix_pair (a b : Char) :
    endsWithSizeSuffix [a, b] = (a == '_' && !(isPySpace b)) := rfl

lemma endsWithSizeSuffix_cons₃ (a b c : Char) (r : List Char) :
    endsWithSizeSuffix (a :: b :: c :: r) = endsWithSizeSuffix (b :: c :: r) := rfl

/-- Lazy/greedy tail matching with the empty size suffix: when the image id does
not itself end in an underscore-plus-one-character group, the whole of it is
captured as `image_id`. -/
lemma lazyTail_empty_suffix (i : List Char) (hnl : '\n' ∉ i)
    (hend : endsWithSizeSuffix i = false) :
    lazyTail (i ++ jpg) = some (i, []) := by
  induction i with
  | nil => decide
  | cons a i ih =>
    have ha : a ≠ '\n' := fun h => hnl (h ▸ List.mem_cons_self a i)
    have hnl' : '\n' ∉ i := fun h => hnl (List.mem_cons_of_mem a h)
    rcases i with _ | ⟨b, i'⟩
    · show lazyTail (a :: jpg) = some ([a], [])
      rw [show (a :: jpg = a :: '.' :: ['j', 'p', 'g']) from rfl, lazyTail_cons_cons]
      rw [if_neg, if_neg, if_neg ha]
      · have : lazyTail ('.' :: ['j', 'p', 'g']) = some ([], []) := by decide
        rw [this]; rfl
      · rw [show (a :: '.' :: ['j', 'p', 'g'] = [a] ++ jpg) from rfl, jpgEndP_append]
        simp
      · rintro ⟨-, -, hj⟩
        revert hj; decide
    · rcases i' with _ | ⟨c, i''⟩
      · show lazyTail (a :: b :: jpg) = some ([a, b], [])
        rw [lazyTail_cons_cons]
        rw [if_neg, if_neg, if_neg ha]
        · have hb : lazyTail ([b] ++ jpg) = some ([b], []) := by
            apply ih hnl'
            rfl
          rw [show (b :: jpg = [b] ++ jpg) from rfl, hb]; rfl
        · rw [show (a :: b :: jpg = [a, b] ++ jpg) from rfl, jpgEndP_append]
          simp
        · rintro ⟨ha', hb', -⟩
          rw [endsWithSizeSuffix_pair, ha', hb'] at hend
          simp at hend
      · show lazyTail (a :: b :: (c :: i'' ++ jpg)) = some (a :: b :: c :: i'', [])
        rw [lazyTail_cons_cons]
        rw [if_neg, if_neg, if_neg ha]
        · have hb : lazyTail (b :: c :: i'' ++ jpg) = some (b :: c :: i'', []) := by
            apply ih hnl'
            rw [← endsWithSizeSuffix_cons₃ a b c i'']
            exact hend
          rw [show (b :: (c :: i'' ++ jpg) = b :: c :: i'' ++ jpg) from rfl, hb]
          rfl
        · rw [show (a :: b :: (c :: i'' ++ jpg) = (a :: b :: c :: i'') ++ jpg) from rfl,
            jpgEndP_append]
          simp
        · rintro ⟨-, -, hj⟩
          rw [show (c :: i'' ++ jpg = (c :: i'') ++ jpg) from rfl, jpgEndP_append] at hj
          simp at hj

/-- Lazy/greedy tail matching with a one-character size suffix: the suffix is
always split off, whatever the image id looks like. -/
lemma lazyTail_underscore_suffix (i : List Char) (c : Char) (hnl : '\n' ∉ i)
    (hc : isPySpace c = false) :
    lazyTail (i ++ '_' :: c :: jpg) = some (i, ['_', c]) := by
  induction i with
  | nil =>
    show lazyTail ('_' :: c :: jpg) = some ([], ['_', c])
    rw [lazyTail_cons_cons, if_pos ⟨rfl, hc, Or.inl rfl⟩]
  | cons a i ih =>
    have ha : a ≠ '\n' := fun h => hnl (h ▸ List.mem_cons_self a i)
    have hnl' : '\n' ∉ i := fun h => hnl (List.mem_cons_of_mem a h)
    rcases i with _ | ⟨b, i'⟩
    · show lazyTail (a :: '_' :: (c :: jpg)) = some ([a], ['_', c])
      rw [lazyTail_cons_cons]
      rw [if_neg, if_neg, if_neg ha]
      · have h0 : lazyTail ([] ++ '_' :: c :: jpg) = some ([], ['_', c]) := ih (by simp)
        rw [show ('_' :: (c :: jpg) = [] ++ '_' :: c :: jpg) from rfl, h0]
        rfl
      · rw [show (a :: '_' :: (c :: jpg) = (a :: ['_', c]) ++ jpg) from rfl, jpgEndP_append]
        simp
      · rintro ⟨-, -, hj⟩
        rw [show (c :: jpg = [c] ++ jpg) from rfl, jpgEndP_append] at hj
        simp at hj
    · show lazyTail (a :: b :: (i' ++ '_' :: c :: jpg)) = some (a :: b :: i', ['_', c])
      rw [lazyTail_cons_cons]
      rw [if_neg, if_neg, if_neg ha]
      · have h0 : lazyTail (b :: i' ++ '_' :: c :: jpg) = some (b :: i', ['_', c]) :=
          ih hnl'
        rw [show (b :: (i' ++ '_' :: c :: jpg) = b :: i' ++ '_' :: c :: jpg) from rfl, h0]
        rfl
      · rw [show (a :: b :: (i' ++ '_' :: c :: jpg) = ((a :: b :: i') ++ ['_', c]) ++ jpg)
            from by simp, jpgEndP_append]
        simp
      · rintro ⟨-, -, hj⟩
        rw [show (i' ++ '_' :: c :: jpg = (i' ++ ['_', c]) ++ jpg) from by simp,
          jpgEndP_append] at hj
        simp at hj

/-- Any tail ending in `.jpg` is accepted by the tail matcher, provided the part
before the extension contains no newline. -/
lemma lazyTail_append_jpg_isSome (l : List Char) (hnl : '\n' ∉ l) :
    (lazyTail (l ++ jpg)).isSome = true := by
  induction l with
  | nil => decide
  | cons a l ih =>
    have ha : a ≠ '\n' := fun h => hnl (h ▸ List.mem_cons_self a l)
    have hnl' : '\n' ∉ l := fun h => hnl (List.mem_cons_of_mem a h)
    cases hl : l ++ jpg with
    | nil =>
      rcases List.append_eq_nil.mp hl with ⟨-, hj⟩
      simp [jpg] at hj
    | cons b r =>
      rw [show (a :: l ++ jpg = a :: b :: r) from by rw [List.cons_append, hl],
        lazyTail_cons_cons]
      by_cases h1 : a = '_' ∧ isPySpace b = false ∧ jpgEndP r
      · rw [if_pos h1]; rfl
      · rw [if_neg h1]
        by_cases h2 : jpgEndP (a :: b :: r)
        · rw [if_pos h2]; rfl
        · rw [if_neg h2, if_neg ha, ← hl]
          simpa using ih hnl'

/-- Inversion: a successful tail match means the input ends in `.jpg`, possibly
followed by one trailing newline. -/
lemma lazyTail_some_suffix (r : List Char) (p : List Char × List Char)
    (h : lazyTail r = some p) : jpg <:+ r ∨ jpg ++ ['\n'] <:+ r := by
  induction r generalizing p with
  | nil => simp [lazyTail] at h
  | cons a r ih =>
    rcases r with _ | ⟨b, r'⟩
    · simp [lazyTail] at h
    · rw [lazyTail_cons_cons] at h
      split at h
      · rename_i hcond
        rcases hcond.2.2 with hj | hj
        · exact Or.inl ⟨[a, b], by simp [hj]⟩
        · exact Or.inr ⟨[a, b], by simp [hj]⟩
      · split at h
        · rename_i hcond
          rcases hcond with hj | hj
          · exact Or.inl (hj ▸ List.suffix_refl _)
          · exact Or.inr (hj ▸ List.suffix_refl _)
        · split at h
          · exact absurd h (by simp)
          · obtain ⟨q, hq, -⟩ := Option.map_eq_some'.mp h
            rcases ih q hq with hs | hs
            · exact Or.inl (hs.trans (List.suffix_cons a _))
            · exact Or.inr (hs.trans (List.suffix_cons a _))

lemma takeDigits_append (d : List Char) (a : Char) (r : List Char)
    (hd : ∀ c ∈ d, c.isDigit = true) (ha : a.isDigit = false) :
    takeDigits (d ++ a :: r) = (d, a :: r) := by
  induction d with
  | nil => simp [takeDigits, ha]
  | cons c d ih =>
    have hc : c.isDigit = true := hd c (List.mem_cons_self c d)
    have ih' := ih fun x hx => hd x (List.mem_cons_of_mem c hx)
    simp [takeDigits, hc, ih']

lemma takeDigits_snd_suffix (l : List Char) : (takeDigits l).2 <:+ l := by
  induction l with
  | nil => exact List.suffix_refl _
  | cons c r ih =>
    by_cases hc : c.isDigit
    · simpa [takeDigits, hc] using ih.trans (List.suffix_cons c r)
    · simp [takeDigits, hc]

lemma stripLit_append (l r : List Char) : stripLit l (l ++ r) = some r := by
  induction l with
  | nil => rfl
  | cons c l ih => simp [stripLit, ih]

lemma stripLit_some_suffix (l s r : List Char) (h : stripLit l s = some r) : r <:+ s := by
  induction l generalizing s with
  | nil =>
    cases h
    exact List.suffix_refl _
  | cons c l ih =>
    rcases s with _ | ⟨x, s'⟩
    · simp [stripLit] at h
    · rw [stripLit] at h
      split at h
      · exact (ih s' h).trans (List.suffix_cons x s')
      · simp at h

/-- Matching a canonically assembled hotlink URL reduces to tail matching: the
subdomain, domain and farm segments are consumed deterministically. -/
lemma hotlinkMatch_decomp (dl fl r : List Char)
    (hd1 : dl ≠ []) (hd2 : ∀ c ∈ dl, c.isDigit = true)
    (hf1 : fl ≠ []) (hf2 : ∀ c ∈ fl, c.isDigit = true) :
    hotlinkMatchList
        ('c' :: (dl ++ '.' :: (staticflickrL ++ '.' :: (comSlashL ++ fl ++ '/' :: r))))
      = (lazyTail r).map fun pr => (fl, pr.1) := by
  rw [hotlinkMatchList]
  rw [if_pos rfl]
  rw [show (dl ++ '.' :: (staticflickrL ++ '.' :: (comSlashL ++ fl ++ '/' :: r))
      = dl ++ '.' :: (staticflickrL ++ ('.' :: (comSlashL ++ (fl ++ '/' :: r)))))
    from by simp]
  rw [takeDigits_append dl '.' _ hd2 (by decide)]
  rw [if_neg hd1]
  dsimp only
  rw [if_pos rfl]
  rw [stripLit_append staticflickrL ('.' :: (comSlashL ++ (fl ++ '/' :: r)))]
  dsimp only
  rw [if_neg (by decide : ¬('.' : Char) = '\n')]
  rw [stripLit_append comSlashL (fl ++ '/' :: r)]
  dsimp only
  rw [takeDigits_append fl '/' r hf2 (by decide)]
  rw [if_neg hf1]
  dsimp only
  rw [if_pos rfl]

lemma mkHotlink_data (d f i z : String) :
    (mkHotlink d f i z).data =
      'c' :: (d.data ++ '.' :: (staticflickrL ++ '.' :: (comSlashL ++ f.data ++ '/' ::
        (i.data ++ (z.data ++ jpg))))) := by
  simp only [mkHotlink, str_data_append]
  simp [staticflickrL, comSlashL, jpg, List.append_assoc]

/-- Core correctness of `hotlink_url2embed_url` on canonically assembled hotlink
URLs whose image id cannot be re-analyzed by the size-suffix group. -/
lemma hotlink_mk_eq (d f i z : String) (hd : digitStr d) (hf : digitStr f)
    (hi1 : '\n' ∉ i.data) (hi2 : endsWithSizeSuffix i.data = false)
    (hz : optSizeSuffix z) :
    hotlink_url2embed_url (mkHotlink d f i z) =
      some ("https://farm" ++ f ++ ".staticflickr.com/" ++ i ++ ".jpg") := by
  obtain ⟨hd1, hd2⟩ := hd
  obtain ⟨hf1, hf2⟩ := hf
  have hd1' : d.data ≠ [] := fun h => hd1 ((str_data_nil_iff d).mp h)
  have hf1' : f.data ≠ [] := fun h => hf1 ((str_data_nil_iff f).mp h)
  rw [hotlink_url2embed_url, mkHotlink_data,
    hotlinkMatch_decomp d.data f.data _ hd1' hd2 hf1' hf2]
  rcases hz with hz | ⟨c, hc, hz⟩
  · rw [hz, show ("" : String).data = [] from rfl,
      show (i.data ++ ([] ++ jpg)) = i.data ++ jpg from by simp,
      lazyTail_empty_suffix i.data hi1 hi2]
    simp only [Option.map_some']
  · rw [hz, show (String.mk ['_', c]).data = '_' :: c :: [] from rfl,
      show (i.data ++ ('_' :: c :: [] ++ jpg)) = i.data ++ '_' :: c :: jpg from by simp,
      lazyTail_underscore_suffix i.data c hi1 hc]
    simp only [Option.map_some']

/-- C1 (amended): for every pair of well-formed hotlink URLs built from the same
subdomain digits, farm id and image id and differing only in their optional size
suffix, `hotlink_url2embed_url` returns the identical embed URL — provided the
shared image id contains no newline and does not itself end in an underscore
followed by a single non-whitespace character (otherwise the pattern's lazy
`image_id`/greedy `(_\S)?` split re-attributes that tail as the size suffix);
in particular the two documented example inputs both normalize to
`https://farm1.staticflickr.com/703/21526920079_554534770b.jpg`. -/
theorem C1_suffix_invariance (d f i z1 z2 : String)
    (hd : digitStr d) (hf : digitStr f)
    (hi1 : '\n' ∉ i.data) (hi2 : endsWithSizeSuffix i.data = false)
    (hz1 : optSizeSuffix z1) (hz2 : optSizeSuffix z2) :
    hotlink_url2embed_url (mkHotlink d f i z1) = hotlink_url2embed_url (mkHotlink d f i z2)
    ∧ hotlink_url2embed_url "c1.staticflickr.com/1/703/21526920079_554534770b_b.jpg"
        = some "https://farm1.staticflickr.com/703/21526920079_554534770b.jpg"
    ∧ hotlink_url2embed_url "c1.staticflickr.com/1/703/21526920079_554534770b.jpg"
        = some "https://farm1.staticflickr.com/703/21526920079_554534770b.jpg" := by
  refine ⟨?_, by decide, by decide⟩
  rw [hotlink_mk_eq d f i z1 hd hf hi1 hi2 hz1, hotlink_mk_eq d f i z2 hd hf hi1 hi2 hz2]

theorem C1_witness :
    hotlink_url2embed_url (mkHotlink "1" "1" "a" "")
        = hotlink_url2embed_url (mkHotlink "1" "1" "a" "_b")
    ∧ hotlink_url2embed_url "c1.staticflickr.com/1/703/21526920079_554534770b_b.jpg"
        = some "https://farm1.staticflickr.com/703/21526920079_554534770b.jpg"
    ∧ hotlink_url2embed_url "c1.staticflickr.com/1/703/21526920079_554534770b.jpg"
        = some "https://farm1.staticflickr.com/703/21526920079_554534770b.jpg" :=
  C1_suffix_invariance "1" "1" "a" "" "_b" ⟨by decide, by decide⟩ ⟨by decide, by decide⟩
    (by decide) (by decide) (Or.inl rfl) (Or.inr ⟨'b', by decide, rfl⟩)

/-- C1 counterexample: the URLs `c1.staticflickr.com/1/a_b.jpg` and
`c1.staticflickr.com/1/a_b_z.jpg` are both well-formed and differ only in the
optional size suffix (`""` versus `"_z"`) over the shared image id `a_b`, yet
they normalize to different embed URLs, because the regular expression parses
the first one as image id `a` with size suffix `_b`. -/
theorem C1_counterexample :
    "c1.staticflickr.com/1/a_b.jpg" = mkHotlink "1" "1" "a_b" "" ∧
    "c1.staticflickr.com/1/a_b_z.jpg" = mkHotlink "1" "1" "a_b" "_z" ∧
    (hotlink_url2embed_url "c1.staticflickr.com/1/a_b.jpg").isSome = true ∧
    (hotlink_url2embed_url "c1.staticflickr.com/1/a_b_z.jpg").isSome = true ∧
    hotlink_url2embed_url "c1.staticflickr.com/1/a_b.jpg"
      ≠ hotlink_url2embed_url "c1.staticflickr.com/1/a_b_z.jpg" := by decide

/-- C2 (amended): for every input string assembled as
`c<digits>.staticflickr.com/<digits>/<image_id><optional_size_suffix>.jpg`,
`hotlink_url2embed_url` returns exactly
`https://farm<farm_id>.staticflickr.com/<image_id>.jpg` — provided the image id
contains no newline and does not itself end in an underscore followed by a
single non-whitespace character (otherwise the lazy `image_id` group ends
earlier and that tail becomes the size suffix). -/
theorem C2_normalization (d f i z : String) (hd : digitStr d) (hf : digitStr f)
    (hi1 : '\n' ∉ i.data) (hi2 : endsWithSizeSuffix i.data = false)
    (hz : optSizeSuffix z) :
    hotlink_url2embed_url (mkHotlink d f i z) =
      some ("https://farm" ++ f ++ ".staticflickr.com/" ++ i ++ ".jpg") :=
  hotlink_mk_eq d f i z hd hf hi1 hi2 hz

theorem C2_witness :
    hotlink_url2embed_url (mkHotlink "1" "703" "21526920079_554534770b" "_b")
      = some ("https://farm" ++ "703" ++ ".staticflickr.com/"
          ++ "21526920079_554534770b" ++ ".jpg") :=
  C2_normalization "1" "703" "21526920079_554534770b" "_b"
    ⟨by decide, by decide⟩ ⟨by decide, by decide⟩ (by decide) (by decide)
    (Or.inr ⟨'b', by decide, rfl⟩)

/-- C2 counterexample: the input `c1.staticflickr.com/1/a_b.jpg` matches the
pattern with image id `a_b` and empty size suffix, but the function does not
return `https://farm1.staticflickr.com/a_b.jpg`; it returns
`https://farm1.staticflickr.com/a.jpg`, treating `_b` as the size suffix. -/
theorem C2_counterexample :
    "c1.staticflickr.com/1/a_b.jpg" = mkHotlink "1" "1" "a_b" "" ∧
    hotlink_url2embed_url "c1.staticflickr.com/1/a_b.jpg"
        ≠ some ("https://farm" ++ "1" ++ ".staticflickr.com/" ++ "a_b" ++ ".jpg") ∧
    hotlink_url2embed_url "c1.staticflickr.com/1/a_b.jpg"
        = some "https://farm1.staticflickr.com/a.jpg" := by decide

/-- Inversion: a successful `HOTLINK_URL_REGEX` match means the input ends in
`.jpg`, possibly followed by one trailing newline. -/
lemma hotlinkMatchList_some_suffix (s : List Char) (pr : List Char × List Char)
    (h : hotlinkMatchList s = some pr) : jpg <:+ s ∨ jpg ++ ['\n'] <:+ s := by
  rcases s with _ | ⟨c0, r0⟩
  · simp [hotlinkMatchList] at h
  · rw [hotlinkMatchList] at h
    dsimp only at h
    split at h
    · split at h
      · simp at h
      · split at h
        · simp at h
        · rename_i c1 r2 heq₁
          split at h
          · split at h
            · simp at h
            · simp at h
            · rename_i a r4 heq₂
              split at h
              · simp at h
              · split at h
                · simp at h
                · rename_i r5 heq₃
                  split at h
                  · simp at h
                  · split at h
                    · simp at h
                    · rename_i c2 r7 heq₄
                      split at h
                      · obtain ⟨q, hq, -⟩ := Option.map_eq_some'.mp h
                        have s1 : r7 <:+ c2 :: r7 := List.suffix_cons c2 r7
                        have s2 : c2 :: r7 <:+ r5 := heq₄ ▸ takeDigits_snd_suffix r5
                        have s3 : r5 <:+ r4 := stripLit_some_suffix _ _ _ heq₃
                        have s4 : a :: r4 <:+ r2 := stripLit_some_suffix _ _ _ heq₂
                        have s5 : r4 <:+ r2 := (List.suffix_cons a r4).trans s4
                        have s6 : c1 :: r2 <:+ r0 := heq₁ ▸ takeDigits_snd_suffix r0
                        have s7 : r2 <:+ r0 := (List.suffix_cons c1 r2).trans s6
                        have h7 : r7 <:+ c0 :: r0 :=
                          ((((s1.trans s2).trans s3).trans s5).trans s7).trans
                            (List.suffix_cons c0 r0)
                        rcases lazyTail_some_suffix r7 q hq with hs | hs
                        · exact Or.inl (hs.trans h7)
                        · exact Or.inr (hs.trans h7)
                      · simp at h
          · simp at h
    · simp at h

/-- C5: the normalizer is total on well-formed hotlink URLs and fails on
malformed input instead of returning a value: every canonically assembled
hotlink URL is accepted, every string not ending in the `.jpg` extension
(modulo the trailing-newline quirk of `$`) is rejected, and in particular the
documented example without a `.jpg` extension is rejected. In the source the
failure raises through `None.group` (an `AttributeError`, the error the spec
calls `MalformedURLError`); it is modeled as `none`. -/
theorem C5_malformed :
    (∀ d f i z : String, digitStr d → digitStr f → '\n' ∉ i.data → optSizeSuffix z →
        (hotlink_url2embed_url (mkHotlink d f i z)).isSome = true)
    ∧ (∀ s : String, ¬ (jpg <:+ s.data ∨ jpg ++ ['\n'] <:+ s.data) →
        hotlink_url2embed_url s = none)
    ∧ hotlink_url2embed_url "c1.staticflickr.com/1/703/21526920079_554534770b" = none := by
  refine ⟨?_, ?_, by decide⟩
  · intro d f i z hd hf hi hz
    obtain ⟨hd1, hd2⟩ := hd
    obtain ⟨hf1, hf2⟩ := hf
    have hd1' : d.data ≠ [] := fun h => hd1 ((str_data_nil_iff d).mp h)
    have hf1' : f.data ≠ [] := fun h => hf1 ((str_data_nil_iff f).mp h)
    rw [hotlink_url2embed_url, mkHotlink_data,
      hotlinkMatch_decomp d.data f.data _ hd1' hd2 hf1' hf2]
    have hnl : '\n' ∉ i.data ++ z.data := by
      intro hmem
      rcases List.mem_append.mp hmem with hm | hm
      · exact hi hm
      · rcases hz with hz | ⟨c, hc, hz⟩
        · rw [hz] at hm
          simp at hm
        · rw [hz] at hm
          have hm' : ('\n' : Char) = '_' ∨ ('\n' : Char) = c := by simpa using hm
          rcases hm' with hm'' | hm''
          · exact absurd hm'' (by decide)
          · rw [← hm''] at hc
            exact absurd hc (by decide)
    have hsome := lazyTail_append_jpg_isSome (i.data ++ z.data) hnl
    rw [show ((i.data ++ z.data) ++ jpg) = i.data ++ (z.data ++ jpg) from by simp] at hsome
    cases hlt : lazyTail (i.data ++ (z.data ++ jpg)) with
    | none => rw [hlt] at hsome; simp at hsome
    | some q => rfl
  · intro s hns
    cases hh : hotlink_url2embed_url s with
    | none => rfl
    | some e =>
      rw [hotlink_url2embed_url] at hh
      obtain ⟨q, hq, -⟩ := Option.map_eq_some'.mp hh
      exact absurd (hotlinkMatchList_some_suffix s.data q hq) hns

theorem C5_witness :
    (hotlink_url2embed_url (mkHotlink "1" "1" "a" "")).isSome = true ∧
    hotlink_url2embed_url "c1.staticflickr.com/1/703" = none :=
  ⟨C5_malformed.1 "1" "1" "a" "" ⟨by decide, by decide⟩ ⟨by decide, by decide⟩
      (by decide) (Or.inl rfl),
    C5_malformed.2.1 "c1.staticflickr.com/1/703" (by decide)⟩

/-- C6: `get_orientation` returns `landscape` exactly when width > height and
`portrait` otherwise, ties resolving to portrait; in particular on the three
documented examples 500x334, 334x500 and 400x400. -/
theorem C6_orientation :
    (∀ width height : Int,
        (get_orientation width height = "landscape" ↔ height < width)
        ∧ (get_orientation width height = "portrait" ↔ ¬ height < width))
    ∧ get_orientation 500 334 = "landscape"
    ∧ get_orientation 334 500 = "portrait"
    ∧ get_orientation 400 400 = "portrait" := by
  refine ⟨fun w h => ?_, by decide, by decide, by decide⟩
  by_cases hw : h < w
  · rw [get_orientation, if_pos hw]
    exact ⟨⟨fun _ => hw, fun _ => rfl⟩,
      ⟨fun hp => absurd hp (by decide), fun hn => absurd hw hn⟩⟩
  · rw [get_orientation, if_neg hw]
    exact ⟨⟨fun hl => absurd hl (by decide), fun hlt => absurd hlt hw⟩,
      ⟨fun _ => hw, fun _ => rfl⟩⟩

theorem C6_witness : get_orientation 2 1 = "landscape" :=
  ((C6_orientation.1 2 1).1).mpr (by decide)

/-! Embed-code template segments, named after their role in the markup. -/

def tagHref : String := "<a data-flickr-embed=\"true\" href=\""

def tagTitle : String := "\" title=\""

def tagSrc : String := "\"> <img src=\""

def tagWidth : String := "\" width=\""

def tagHeight : String := "\" height=\""

def tagAlt : String := "\" alt=\""

def tagClose : String := "\"></a>"

lemma embed_code_landscape (u p t : String) :
    embed_url2embed_code u p t "landscape" =
      tagHref ++ p ++ tagTitle ++ t ++ tagSrc ++ u ++ tagWidth ++ "500" ++ tagHeight
        ++ "334" ++ tagAlt ++ t ++ tagClose := rfl

lemma embed_code_portrait (u p t : String) :
    embed_url2embed_code u p t "portrait" =
      tagHref ++ p ++ tagTitle ++ t ++ tagSrc ++ u ++ tagWidth ++ "334" ++ tagHeight
        ++ "500" ++ tagAlt ++ t ++ tagClose := rfl

lemma embed_code_not_landscape (u p t o : String) (ho : o ≠ "landscape") :
    embed_url2embed_code u p t o =
      tagHref ++ p ++ tagTitle ++ t ++ tagSrc ++ u ++ tagWidth ++ "334" ++ tagHeight
        ++ "500" ++ tagAlt ++ t ++ tagClose := by
  unfold embed_url2embed_code
  rw [if_neg ho]
  rfl

/-- The rendered template contains `width="<w>" height="<h>"` as a substring. -/
lemma tmpl_contains_wh (p t u w h' : String) :
    strContains
      (tagHref ++ p ++ tagTitle ++ t ++ tagSrc ++ u ++ tagWidth ++ w ++ tagHeight
        ++ h' ++ tagAlt ++ t ++ tagClose)
      ("width=\"" ++ w ++ "\" height=\"" ++ h' ++ "\"") := by
  refine ⟨(tagHref ++ p ++ tagTitle ++ t ++ tagSrc ++ u).data ++ ['"', ' '],
    [' ', 'a', 'l', 't', '=', '"'] ++ (t.data ++ tagClose.data), ?_⟩
  simp only [str_data_append]
  rw [show tagWidth.data = ['"', ' '] ++ ['w', 'i', 'd', 't', 'h', '=', '"'] from rfl,
    show tagHeight.data = ['"', ' ', 'h', 'e', 'i', 'g', 'h', 't', '=', '"'] from rfl,
    show tagAlt.data = ['"'] ++ [' ', 'a', 'l', 't', '=', '"'] from rfl]
  simp [List.append_assoc]

/-- The rendered template contains `title="<title>"` as a substring. -/
lemma tmpl_contains_title (p t u w h' : String) :
    strContains
      (tagHref ++ p ++ tagTitle ++ t ++ tagSrc ++ u ++ tagWidth ++ w ++ tagHeight
        ++ h' ++ tagAlt ++ t ++ tagClose)
      ("title=\"" ++ t ++ "\"") := by
  refine ⟨tagHref.data ++ (p.data ++ ['"', ' ']),
    ['>', ' ', '<', 'i', 'm', 'g', ' ', 's', 'r', 'c', '=', '"'] ++
      (u.data ++ (tagWidth.data ++ (w.data ++ (tagHeight.data ++ (h'.data ++
        (tagAlt.data ++ (t.data ++ tagClose.data))))))), ?_⟩
  simp only [str_data_append]
  rw [show tagTitle.data = ['"', ' '] ++ ['t', 'i', 't', 'l', 'e', '=', '"'] from rfl,
    show tagSrc.data
      = ['"'] ++ ['>', ' ', '<', 'i', 'm', 'g', ' ', 's', 'r', 'c', '=', '"'] from rfl]
  simp [List.append_assoc]

/-- C7: the embed code for orientation `landscape` renders the dimension pair
`width="500" height="334"` and for `portrait` the pair `width="334"
height="500"`; in both cases the output is exactly an anchor element carrying
the `data-flickr-embed` marker, the page URL as `href` and the title, wrapping
an image element carrying the embed URL as `src` and the title as `alt`. -/
theorem C7_embed_dimensions :
    (∀ u p t : String, embed_url2embed_code u p t "landscape" =
        tagHref ++ p ++ tagTitle ++ t ++ tagSrc ++ u ++ tagWidth ++ "500" ++ tagHeight
          ++ "334" ++ tagAlt ++ t ++ tagClose)
    ∧ (∀ u p t : String, embed_url2embed_code u p t "portrait" =
        tagHref ++ p ++ tagTitle ++ t ++ tagSrc ++ u ++ tagWidth ++ "334" ++ tagHeight
          ++ "500" ++ tagAlt ++ t ++ tagClose)
    ∧ (∀ u p t : String,
        strContains (embed_url2embed_code u p t "landscape") "width=\"500\" height=\"334\"")
    ∧ (∀ u p t : String,
        strContains (embed_url2embed_code u p t "portrait") "width=\"334\" height=\"500\"") := by
  refine ⟨fun u p t => embed_code_landscape u p t, fun u p t => embed_code_portrait u p t,
    fun u p t => ?_, fun u p t => ?_⟩
  · rw [embed_code_landscape]
    have h := tmpl_contains_wh p t u "500" "334"
    rwa [show ("width=\"" ++ "500" ++ "\" height=\"" ++ "334" ++ "\"" : String)
      = "width=\"500\" height=\"334\"" from rfl] at h
  · rw [embed_code_portrait]
    have h := tmpl_contains_wh p t u "334" "500"
    rwa [show ("width=\"" ++ "334" ++ "\" height=\"" ++ "500" ++ "\"" : String)
      = "width=\"334\" height=\"500\"" from rfl] at h

theorem C7_witness :
    embed_url2embed_code "U" "P" "T" "landscape" =
      tagHref ++ "P" ++ tagTitle ++ "T" ++ tagSrc ++ "U" ++ tagWidth ++ "500" ++ tagHeight
        ++ "334" ++ tagAlt ++ "T" ++ tagClose :=
  C7_embed_dimensions.1 "U" "P" "T"

/-- C9: every orientation value other than the exact string `landscape` is
treated as portrait — the output coincides with the portrait output and renders
`width="334" height="500"`; the function is total, so no input raises. -/
theorem C9_orientation_fallback (u p t o : String) (ho : o ≠ "landscape") :
    embed_url2embed_code u p t o = embed_url2embed_code u p t "portrait"
    ∧ strContains (embed_url2embed_code u p t o) "width=\"334\" height=\"500\"" := by
  have he := embed_code_not_landscape u p t o ho
  constructor
  · rw [he, embed_code_portrait]
  · rw [he]
    have h := tmpl_contains_wh p t u "334" "500"
    rwa [show ("width=\"" ++ "334" ++ "\" height=\"" ++ "500" ++ "\"" : String)
      = "width=\"334\" height=\"500\"" from rfl] at h

theorem C9_witness :
    embed_url2embed_code "U" "P" "T" "" = embed_url2embed_code "U" "P" "T" "portrait"
    ∧ strContains (embed_url2embed_code "U" "P" "T" "") "width=\"334\" height=\"500\"" :=
  C9_orientation_fallback "U" "P" "T" "" (by decide)

/-- C10: no escaping or sanitization is performed — page URL, image URL and
title appear character for character in the markup, the title twice (title and
alt attribute positions), and a title containing a double quote produces the
substring `title="a"b"`, i.e. broken attribute quoting. -/
theorem C10_no_escaping :
    (∀ u p t o : String, embed_url2embed_code u p t o =
        tagHref ++ p ++ tagTitle ++ t ++ tagSrc ++ u ++ tagWidth
          ++ (if o = "landscape" then "500" else "334") ++ tagHeight
          ++ (if o = "landscape" then "334" else "500") ++ tagAlt ++ t ++ tagClose)
    ∧ (∀ u p t o : String,
        strContains (embed_url2embed_code u p t o) ("title=\"" ++ t ++ "\""))
    ∧ strContains (embed_url2embed_code "U" "P" "a\"b" "landscape") "title=\"a\"b\"" := by
  have hgen : ∀ u p t o : String, embed_url2embed_code u p t o =
      tagHref ++ p ++ tagTitle ++ t ++ tagSrc ++ u ++ tagWidth
        ++ (if o = "landscape" then "500" else "334") ++ tagHeight
        ++ (if o = "landscape" then "334" else "500") ++ tagAlt ++ t ++ tagClose := by
    intro u p t o
    by_cases ho : o = "landscape"
    · rw [ho, if_pos rfl, if_pos rfl]
      exact embed_code_landscape u p t
    · rw [if_neg ho, if_neg ho]
      exact embed_code_not_landscape u p t o ho
  refine ⟨hgen, fun u p t o => ?_, ?_⟩
  · rw [hgen u p t o]
    exact tmpl_contains_title p t u _ _
  · rw [embed_code_landscape]
    have h := tmpl_contains_title "P" "a\"b" "U" "500" "334"
    rwa [show ("title=\"" ++ "a\"b" ++ "\"" : String) = "title=\"a\"b\"" from rfl] at h

theorem C10_witness :
    strContains (embed_url2embed_code "U2" "P2" "T2" "portrait")
      ("title=\"" ++ "T2" ++ "\"") :=
  C10_no_escaping.2.1 "U2" "P2" "T2" "portrait"

/-! Unfolding lemmas for the scroll loop. -/

lemma scrollLoop_guard (b : Browser) (scrolls : Nat) (urls : Finset String) (num : Nat)
    (hn : ¬ num < 100) : scrollLoop b scrolls urls num = (some urls, scrolls) := by
  rw [scrollLoop]
  rw [dif_neg hn]

lemma scrollLoop_err (b : Browser) (scrolls : Nat) (urls : Finset String) (num : Nat)
    (hn : num < 100)
    (hv : _get_visible_photos (b.visible (scrolls + 1)) urls = none) :
    scrollLoop b scrolls urls num = (none, scrolls + 1) := by
  rw [scrollLoop]
  rw [dif_pos hn, hv]

lemma scrollLoop_continue (b : Browser) (scrolls : Nat) (urls : Finset String) (num : Nat)
    (urls2 : Finset String) (hn : num < 100)
    (hv : _get_visible_photos (b.visible (scrolls + 1)) urls = some urls2)
    (hcc : urls2.card > num) :
    scrollLoop b scrolls urls num = scrollLoop b (scrolls + 1) urls2 urls2.card := by
  rw [scrollLoop]
  rw [dif_pos hn, hv]
  dsimp only
  rw [dif_pos hcc]

lemma scrollLoop_stop (b : Browser) (scrolls : Nat) (urls : Finset String) (num : Nat)
    (urls2 : Finset String) (hn : num < 100)
    (hv : _get_visible_photos (b.visible (scrolls + 1)) urls = some urls2)
    (hcc : ¬ urls2.card > num) :
    scrollLoop b scrolls urls num = (some urls2, scrolls + 1) := by
  rw [scrollLoop]
  rw [dif_pos hn, hv]
  dsimp only
  rw [dif_neg hcc]

/-- The loop performs at most `100 - num` further scrolls. -/
lemma scrollLoop_scrolls_le (k : Nat) :
    ∀ (b : Browser) (scrolls : Nat) (urls : Finset String) (num : Nat),
      100 - num ≤ k → (scrollLoop b scrolls urls num).2 ≤ scrolls + (100 - num) := by
  induction k with
  | zero =>
    intro b scrolls urls num hk
    have hn : ¬ num < 100 := by omega
    rw [scrollLoop_guard b scrolls urls num hn]
    show scrolls ≤ scrolls + (100 - num)
    omega
  | succ k ih =>
    intro b scrolls urls num hk
    by_cases hn : num < 100
    · cases hv : _get_visible_photos (b.visible (scrolls + 1)) urls with
      | none =>
        rw [scrollLoop_err b scrolls urls num hn hv]
        show scrolls + 1 ≤ scrolls + (100 - num)
        omega
      | some urls2 =>
        by_cases hcc : urls2.card > num
        · rw [scrollLoop_continue b scrolls urls num urls2 hn hv hcc]
          have h2 := ih b (scrolls + 1) urls2 urls2.card (by omega)
          omega
        · rw [scrollLoop_stop b scrolls urls num urls2 hn hv hcc]
          show scrolls + 1 ≤ scrolls + (100 - num)
          omega
    · rw [scrollLoop_guard b scrolls urls num hn]
      show scrolls ≤ scrolls + (100 - num)
      omega

/-- C3: the scroll-and-wait cycle of `_get_page_photos` repeats at most 100
times on any page before the function returns. -/
theorem C3_scroll_bound (b : Browser) : (_get_page_photos b).2 ≤ 100 := by
  have h := scrollLoop_scrolls_le 100 b 0 ∅ 0 (by omega)
  unfold _get_page_photos
  cases hl : scrollLoop b 0 ∅ 0 with
  | mk ores s =>
    rw [hl] at h
    cases ores with
    | none => simpa using h
    | some urls => simpa using h

/-- A browser whose album page shows no photo elements at all. -/
def emptyB : Browser := ⟨fun _ => []⟩

theorem C3_witness : (_get_page_photos emptyB).2 ≤ 100 :=
  C3_scroll_bound emptyB

/-! Monotonicity of the `KnownURLs` accumulator. -/

lemma gvp_mono (elems : List String) (known res : Finset String)
    (h : _get_visible_photos elems known = some res) : known ⊆ res := by
  induction elems generalizing known with
  | nil =>
    simp only [_get_visible_photos, Option.some.injEq] at h
    exact h ▸ Finset.Subset.refl _
  | cons u rest ih =>
    simp only [_get_visible_photos] at h
    cases hcv : hotlink_url2embed_url u with
    | none => rw [hcv] at h; simp at h
    | some e =>
      rw [hcv] at h
      exact (Finset.subset_insert e known).trans (ih (insert e known) h)

lemma scrollLoop_mono (k : Nat) :
    ∀ (b : Browser) (scrolls : Nat) (urls : Finset String) (num : Nat)
      (res : Finset String) (s2 : Nat), 100 - num ≤ k →
      scrollLoop b scrolls urls num = (some res, s2) → urls ⊆ res := by
  induction k with
  | zero =>
    intro b scrolls urls num res s2 hk h
    have hn : ¬ num < 100 := by omega
    rw [scrollLoop_guard b scrolls urls num hn] at h
    simp only [Prod.mk.injEq, Option.some.injEq] at h
    exact h.1 ▸ Finset.Subset.refl _
  | succ k ih =>
    intro b scrolls urls num res s2 hk h
    by_cases hn : num < 100
    · cases hv : _get_visible_photos (b.visible (scrolls + 1)) urls with
      | none =>
        rw [scrollLoop_err b scrolls urls num hn hv] at h
        simp at h
      | some urls2 =>
        by_cases hcc : urls2.card > num
        · rw [scrollLoop_continue b scrolls urls num urls2 hn hv hcc] at h
          exact (gvp_mono _ _ _ hv).trans
            (ih b (scrolls + 1) urls2 urls2.card res s2 (by omega) h)
        · rw [scrollLoop_stop b scrolls urls num urls2 hn hv hcc] at h
          simp only [Prod.mk.injEq, Option.some.injEq] at h
          exact h.1 ▸ gvp_mono _ _ _ hv
    · rw [scrollLoop_guard b scrolls urls num hn] at h
      simp only [Prod.mk.injEq, Option.some.injEq] at h
      exact h.1 ▸ Finset.Subset.refl _

lemma goPages_mono (ps : List Browser) (acc res : Finset String)
    (h : goPages ps acc = some res) : acc ⊆ res := by
  induction ps generalizing acc with
  | nil =>
    simp only [goPages, Option.some.injEq] at h
    exact h ▸ Finset.Subset.refl _
  | cons p ps ih =>
    simp only [goPages] at h
    cases hp : (_get_page_photos p).1 with
    | none => rw [hp] at h; simp at h
    | some s =>
      rw [hp] at h
      exact Finset.subset_union_left.trans (ih (acc ∪ s) h)

/-- Per-page accumulation computes a left fold of unions. -/
lemma goPages_eq (S : Browser → Finset String) :
    ∀ (ps : List Browser), (∀ p ∈ ps, (_get_page_photos p).1 = some (S p)) →
      ∀ acc, goPages ps acc = some (ps.foldl (fun a p => a ∪ S p) acc) := by
  intro ps
  induction ps with
  | nil => intro _ acc; rfl
  | cons p ps ih =>
    intro h acc
    have hp : (_get_page_photos p).1 = some (S p) := h p (List.mem_cons_self p ps)
    simp only [goPages, hp, List.foldl_cons]
    exact ih (fun q hq => h q (List.mem_cons_of_mem p hq)) (acc ∪ S p)

/-- C8: the result of `get_photo_urls` is the union of the per-page URL sets
(set semantics make deduplication inherent even when a photo appears on two
pages), and the `KnownURLs` accumulator only ever grows: across the URLs of one
scan, across the scroll iterations of one page, and across the pages of one
session. -/
theorem C8_union_monotone :
    (∀ (p0 : Browser) (ps : List Browser) (S : Browser → Finset String),
        (∀ p ∈ p0 :: ps, (_get_page_photos p).1 = some (S p)) →
        get_photo_urls (p0 :: ps)
          = some ((p0 :: ps).foldl (fun acc p => acc ∪ S p) ∅))
    ∧ (∀ (elems : List String) (known res : Finset String),
        _get_visible_photos elems known = some res → known ⊆ res)
    ∧ (∀ (b : Browser) (scrolls : Nat) (urls : Finset String) (num : Nat)
          (res : Finset String) (s2 : Nat),
        scrollLoop b scrolls urls num = (some res, s2) → urls ⊆ res)
    ∧ (∀ (ps : List Browser) (acc res : Finset String),
        goPages ps acc = some res → acc ⊆ res) := by
  refine ⟨?_, gvp_mono, ?_, goPages_mono⟩
  · intro p0 ps S h
    have hp0 : (_get_page_photos p0).1 = some (S p0) := h p0 (List.mem_cons_self p0 ps)
    simp only [get_photo_urls, hp0]
    rw [goPages_eq S ps (fun q hq => h q (List.mem_cons_of_mem p0 hq)) (S p0)]
    simp [List.foldl_cons, Finset.empty_union]
  · intro b scrolls urls num res s2 hl
    exact scrollLoop_mono (100 - num) b scrolls urls num res s2 (le_refl _) hl

lemma page_photos_emptyB : _get_page_photos emptyB = (some ∅, 1) := by
  have h1 : scrollLoop emptyB 0 ∅ 0 = (some ∅, 1) :=
    scrollLoop_stop emptyB 0 ∅ 0 ∅ (by omega) rfl (by simp)
  unfold _get_page_photos
  rw [h1]
  rfl

theorem C8_witness :
    get_photo_urls [emptyB]
      = some (([emptyB]).foldl (fun acc p => acc ∪ (fun _ => (∅ : Finset String)) p) ∅) :=
  C8_union_monotone.1 emptyB [] (fun _ => ∅) (by
    intro p hp
    rcases List.mem_singleton.mp hp with rfl
    rw [page_photos_emptyB])

/-- All-or-nothing conversion of a list of hotlink URLs into the set of their
embed URLs, mirroring the per-element conversion loop of `_get_visible_photos`
started from an empty accumulator. -/
def convertURLs : List String → Option (Finset String)
  | [] => some ∅
  | u :: rest =>
    match hotlink_url2embed_url u with
    | none => none
    | some e => (convertURLs rest).map (insert e)

lemma gvp_eq_convert (elems : List String) :
    ∀ known, _get_visible_photos elems known =
      (convertURLs elems).map fun s => known ∪ s := by
  induction elems with
  | nil => intro known; simp [_get_visible_photos, convertURLs]
  | cons u rest ih =>
    intro known
    simp only [_get_visible_photos, convertURLs]
    cases hcv : hotlink_url2embed_url u with
    | none => rfl
    | some e =>
      dsimp only
      rw [ih (insert e known)]
      cases convertURLs rest with
      | none => rfl
      | some s =>
        simp only [Option.map_some']
        congr 1
        ext x
        simp [Finset.mem_insert, Finset.mem_union]

/-- C4 (amended): on a lazily loading page whose visible set grows monotonically
with each scroll, whose distinct-URL count strictly increases on each of the
first 3 scroll cycles and then stays constant, and whose plateau count is below
the loop's 100-URL guard, `_get_page_photos` performs exactly 4 scroll attempts
(3 that increase the count plus 1 that confirms the plateau) and returns the
plateaued URL set. The sub-100 proviso is forced by the guard
`num_of_urls < 100`, which otherwise ends the loop early. -/
theorem C4_convergence (b : Browser) (V : Nat → Finset String)
    (hv : ∀ k, 1 ≤ k → convertURLs (b.visible k) = some (V k))
    (hmono : ∀ k, 1 ≤ k → V k ⊆ V (k + 1))
    (h1 : 0 < (V 1).card) (h2 : (V 1).card < (V 2).card)
    (h3 : (V 2).card < (V 3).card)
    (hplateau : ∀ k, 3 ≤ k → (V (k + 1)).card = (V k).card)
    (hcap : (V 3).card < 100) :
    _get_page_photos b = (some (V 3), 4) := by
  have hV4 : V 3 = V 4 :=
    Finset.eq_of_subset_of_card_le (hmono 3 (by omega))
      (le_of_eq (hplateau 3 (by omega)))
  have hr1 : _get_visible_photos (b.visible 1) ∅ = some (V 1) := by
    rw [gvp_eq_convert, hv 1 (by omega)]
    simp
  have hr2 : _get_visible_photos (b.visible 2) (V 1) = some (V 2) := by
    rw [gvp_eq_convert, hv 2 (by omega)]
    simp [Finset.union_eq_right.mpr (hmono 1 (by omega))]
  have hr3 : _get_visible_photos (b.visible 3) (V 2) = some (V 3) := by
    rw [gvp_eq_convert, hv 3 (by omega)]
    simp [Finset.union_eq_right.mpr (hmono 2 (by omega))]
  have hr4 : _get_visible_photos (b.visible 4) (V 3) = some (V 3) := by
    rw [gvp_eq_convert, hv 4 (by omega)]
    simp [← hV4]
  have e1 : scrollLoop b 0 ∅ 0 = scrollLoop b 1 (V 1) (V 1).card :=
    scrollLoop_continue b 0 ∅ 0 (V 1) (by omega) hr1 h1
  have e2 : scrollLoop b 1 (V 1) (V 1).card = scrollLoop b 2 (V 2) (V 2).card :=
    scrollLoop_continue b 1 (V 1) (V 1).card (V 2) (by omega) hr2 h2
  have e3 : scrollLoop b 2 (V 2) (V 2).card = scrollLoop b 3 (V 3) (V 3).card :=
    scrollLoop_continue b 2 (V 2) (V 2).card (V 3) (by omega) hr3 h3
  have e4 : scrollLoop b 3 (V 3) (V 3).card = (some (V 3), 4) :=
    scrollLoop_stop b 3 (V 3) (V 3).card (V 3) hcap hr4 (by omega)
  have hloop : scrollLoop b 0 ∅ 0 = (some (V 3), 4) :=
    ((e1.trans e2).trans e3).trans e4
  unfold _get_page_photos
  rw [hloop]
  dsimp only
  rw [hr4]

/-- Hotlink URL of the n-th photo of the witness page. -/
def wUrl (n : Nat) : String := "c1.staticflickr.com/1/w" ++ Nat.repr n ++ ".jpg"

/-- Witness page: one new photo appears on each of the first three scrolls. -/
def wPage : Browser := ⟨fun k => (List.range (min k 3)).map wUrl⟩

/-- Embed-URL sets of the witness page after each scroll. -/
def wV (k : Nat) : Finset String :=
  ((List.range (min k 3)).map
    (fun n => "https://farm1.staticflickr.com/w" ++ Nat.repr n ++ ".jpg")).toFinset

theorem C4_witness : _get_page_photos wPage = (some (wV 3), 4) := by
  refine C4_convergence wPage wV ?_ ?_ (by decide) (by decide) (by decide) ?_ (by decide)
  · intro k hk
    rcases k with _ | _ | _ | k
    · omega
    · decide
    · decide
    · have hm : min (k + 3) 3 = 3 := by omega
      show convertURLs ((List.range (min (k + 3) 3)).map wUrl) = some (wV (k + 3))
      simp only [wV, hm]
      decide
  · intro k hk
    rcases k with _ | _ | _ | k
    · omega
    · decide
    · decide
    · have hm : min (k + 3) 3 = 3 := by omega
      have hm' : min (k + 3 + 1) 3 = 3 := by omega
      simp only [wV, hm, hm']
      exact Finset.Subset.refl _
  · intro k hk
    rcases k with _ | _ | _ | k
    · omega
    · omega
    · omega
    · have hm : min (k + 3) 3 = 3 := by omega
      have hm' : min (k + 3 + 1) 3 = 3 := by omega
      simp only [wV, hm, hm']


/-- Conversion of a URL list whose elements all convert successfully yields the
finite set of the resulting embed URLs. -/
lemma convertURLs_eq_toFinset (us : List String) (es : List String)
    (h : us.map hotlink_url2embed_url = es.map (fun e => some e)) :
    convertURLs us = some es.toFinset := by
  induction us generalizing es with
  | nil =>
    cases es with
    | nil => rfl
    | cons e es' => simp at h
  | cons u us' ih =>
    cases es with
    | nil => simp at h
    | cons e es' =>
      simp only [List.map_cons, List.cons.injEq] at h
      obtain ⟨h1, h2⟩ := h
      simp only [convertURLs, h1, ih es' h2]
      simp [List.toFinset_cons]

lemma str_length_append (a b : String) : (a ++ b).length = a.length + b.length := by
  cases a with
  | mk la =>
    cases b with
    | mk lb => exact List.length_append la lb

/-- Image id of the n-th photo of the counterexample page: `n` times `x`, then
`y`, so that all derived URLs have pairwise different lengths. -/
def cexId (n : Nat) : String := String.mk (List.replicate n 'x' ++ ['y'])

/-- Hotlink URL of the n-th photo of the counterexample page. -/
def cexUrl (n : Nat) : String := "c1.staticflickr.com/1/" ++ (cexId n ++ ".jpg")

/-- Embed URL of the n-th photo of the counterexample page. -/
def cexEmbed (n : Nat) : String := "https://farm1.staticflickr.com/" ++ (cexId n ++ ".jpg")

/-- Counterexample page: 100 photos are visible after the first scroll, 101
after the second, 102 from the third scroll on. -/
def cexPage : Browser := ⟨fun k => (List.range (99 + min k 3)).map cexUrl⟩

lemma cexEmbed_length (n : Nat) : (cexEmbed n).length = 36 + n := by
  rw [cexEmbed, str_length_append, str_length_append]
  show 31 + ((List.replicate n 'x' ++ ['y']).length + 4) = 36 + n
  simp [List.length_append, List.length_replicate]
  omega

lemma cexEmbed_injective : Function.Injective cexEmbed := by
  intro m n h
  have hl := congrArg String.length h
  rw [cexEmbed_length, cexEmbed_length] at hl
  omega

lemma cexList_nodup (m : Nat) : ((List.range m).map cexEmbed).Nodup :=
  (List.nodup_range m).map cexEmbed_injective

lemma cexCard (m : Nat) : ((List.range m).map cexEmbed).toFinset.card = m := by
  rw [List.toFinset_card_of_nodup (cexList_nodup m)]
  simp

lemma str_eq_of_data (a b : String) (h : a.data = b.data) : a = b := by
  cases a with
  | mk la =>
    cases b with
    | mk lb => exact congrArg String.mk h

lemma endsWithSizeSuffix_no_underscore (l : List Char) (h : ∀ c ∈ l, ¬ c = '_') :
    endsWithSizeSuffix l = false := by
  induction l with
  | nil => rfl
  | cons a l ih =>
    rcases l with _ | ⟨b, l'⟩
    · rfl
    · rcases l' with _ | ⟨c, l''⟩
      · rw [endsWithSizeSuffix_pair]
        have ha : ¬ a = '_' := h a (List.mem_cons_self a [b])
        simp [ha]
      · rw [endsWithSizeSuffix_cons₃]
        exact ih fun x hx => h x (List.mem_cons_of_mem a hx)

lemma cexId_no_newline (n : Nat) : '\n' ∉ (cexId n).data := by
  intro hm
  rw [show (cexId n).data = List.replicate n 'x' ++ ['y'] from rfl] at hm
  rcases List.mem_append.mp hm with hm | hm
  · exact absurd (List.eq_of_mem_replicate hm) (by decide)
  · exact absurd (List.mem_singleton.mp hm) (by decide)

lemma cexId_no_suffix (n : Nat) : endsWithSizeSuffix (cexId n).data = false := by
  apply endsWithSizeSuffix_no_underscore
  intro c hc
  rw [show (cexId n).data = List.replicate n 'x' ++ ['y'] from rfl] at hc
  rcases List.mem_append.mp hc with hm | hm
  · rw [List.eq_of_mem_replicate hm]; decide
  · rw [List.mem_singleton.mp hm]; decide

lemma cexUrl_convert (n : Nat) : hotlink_url2embed_url (cexUrl n) = some (cexEmbed n) := by
  have hurl : cexUrl n = mkHotlink "1" "1" (cexId n) "" := by
    apply str_eq_of_data
    simp [cexUrl, mkHotlink, str_data_append]
  rw [hurl, hotlink_mk_eq "1" "1" (cexId n) "" ⟨by decide, by decide⟩ ⟨by decide, by decide⟩
    (cexId_no_newline n) (cexId_no_suffix n) (Or.inl rfl)]
  refine congrArg some (str_eq_of_data _ _ ?_)
  simp [cexEmbed, str_data_append]

lemma convertURLs_cexList (m : Nat) :
    convertURLs ((List.range m).map cexUrl)
      = some (((List.range m).map cexEmbed).toFinset) := by
  apply convertURLs_eq_toFinset
  rw [List.map_map, List.map_map]
  apply List.map_congr_left
  intro n _
  simp only [Function.comp_apply]
  exact cexUrl_convert n

/-- The scroll count reported by `_get_page_photos` is the one the loop
returns. -/
lemma page_photos_snd (b : Browser) (r : Option (Finset String)) (s : Nat)
    (h : scrollLoop b 0 ∅ 0 = (r, s)) : (_get_page_photos b).2 = s := by
  unfold _get_page_photos
  rw [h]
  cases r with
  | none => rfl
  | some urls => rfl

/-- C4 counterexample: a simulated page whose distinct visible URL count
strictly increases on each of the first 3 scroll cycles (100, 101, 102) and
then stays constant satisfies the claim's premise, yet `_get_page_photos`
performs only 1 scroll attempt, because after the first scan the loop guard
`num_of_urls < 100` is already false. -/
theorem C4_counterexample :
    (convertURLs (cexPage.visible 1)).map Finset.card = some 100 ∧
    (convertURLs (cexPage.visible 2)).map Finset.card = some 101 ∧
    (convertURLs (cexPage.visible 3)).map Finset.card = some 102 ∧
    cexPage.visible 4 = cexPage.visible 3 ∧
    (_get_page_photos cexPage).2 = 1 ∧
    ¬ (_get_page_photos cexPage).2 = 4 := by
  have hc1 : convertURLs (cexPage.visible 1)
      = some ((List.range 100).map cexEmbed).toFinset := by
    rw [show cexPage.visible 1 = (List.range 100).map cexUrl from rfl]
    exact convertURLs_cexList 100
  have hc2 : convertURLs (cexPage.visible 2)
      = some ((List.range 101).map cexEmbed).toFinset := by
    rw [show cexPage.visible 2 = (List.range 101).map cexUrl from rfl]
    exact convertURLs_cexList 101
  have hc3 : convertURLs (cexPage.visible 3)
      = some ((List.range 102).map cexEmbed).toFinset := by
    rw [show cexPage.visible 3 = (List.range 102).map cexUrl from rfl]
    exact convertURLs_cexList 102
  have hr1 : _get_visible_photos (cexPage.visible 1) ∅
      = some ((List.range 100).map cexEmbed).toFinset := by
    rw [gvp_eq_convert, hc1]
    simp
  have hcard : ((List.range 100).map cexEmbed).toFinset.card = 100 := cexCard 100
  have hstep : scrollLoop cexPage 0 ∅ 0
      = scrollLoop cexPage 1 ((List.range 100).map cexEmbed).toFinset
          ((List.range 100).map cexEmbed).toFinset.card :=
    scrollLoop_continue cexPage 0 ∅ 0 _ (by omega) hr1 (by rw [hcard]; omega)
  have hguard : scrollLoop cexPage 1 ((List.range 100).map cexEmbed).toFinset
        ((List.range 100).map cexEmbed).toFinset.card
      = (some ((List.range 100).map cexEmbed).toFinset, 1) :=
    scrollLoop_guard _ _ _ _ (by rw [hcard]; omega)
  have hsnd : (_get_page_photos cexPage).2 = 1 :=
    page_photos_snd cexPage _ _ (hstep.trans hguard)
  refine ⟨?_, ?_, ?_, rfl, hsnd, by rw [hsnd]; omega⟩
  · rw [hc1, Option.map_some', cexCard]
  · rw [hc2, Option.map_some', cexCard]
  · rw [hc3, Option.map_some', cexCard]
